import Mathlib

/-!
Shallow embedding of the listenmail ingestion/dedup/dispatch core
(pkg/dispatcher/dispatcher.go, pkg/sources/{imap,pop3,smtp,mailhog}.go,
pkg/types/types.go, pkg/utils/mail.go), together with proofs checking the
natural-language specification against the code.

Machine integers (uint32 sequence numbers) are modelled as Nat; Go errors are
modelled as `Option String` (`some msg` = non-nil error, `none` = nil);
external collaborators (IMAP/POP3/HTTP servers, the MIME parser, the
dispatcher seen from a source) are modelled as explicit function parameters
or per-tick input data, so every tick of a polling source is a pure function
of its state and the observed server data.  Each tick function additionally
returns the ghost trace of the Mail values it passed to `Dispatch`.
-/

namespace ListenMail

/-- The normalized mail structure (pkg/types/types.go `Mail`).  Address values
and dates are rendered strings; only the fields the verified claims touch are
carried. -/
structure Mail where
  id : String
  messageID : String
  subject : String
  date : String
  fromAddrs : List String
  toAddrs : List String
  text : String
  source : String
deriving DecidableEq, Repr

/-! ## Dispatcher core (pkg/dispatcher/dispatcher.go)

A handler is an abstract identity `H` (Go compares handler interface values
by identity, both in the `handlersMap` and in `RemoveHandlers`' scan) together
with its `Match` and `Handle` behaviour, passed as functions
`mh : H → Mail → Bool` and `hd : H → Mail → Option String`. -/

/-- `Dispatcher.dispatchToHandlers`: iterate the snapshot of the handler
list in order; a handler whose `Match` returns true has `Handle` called; the
first non-nil error is returned and stops the loop; otherwise nil. -/
def dispatchToHandlers {H : Type} (mh : H → Mail → Bool)
    (hd : H → Mail → Option String) (m : Mail) : List H → Option String
  | [] => none
  | h :: rest =>
    if mh h m then
      match hd h m with
      | some e => some e
      | none => dispatchToHandlers mh hd m rest
    else dispatchToHandlers mh hd m rest

/-- Instrumented form of `dispatchToHandlers`: same control flow, but the
first component records, in order, the handlers whose `Handle` was invoked. -/
def dispatchRun {H : Type} (mh : H → Mail → Bool)
    (hd : H → Mail → Option String) (m : Mail) : List H → List H × Option String
  | [] => ([], none)
  | h :: rest =>
    if mh h m then
      match hd h m with
      | some e => ([h], some e)
      | none =>
        let r := dispatchRun mh hd m rest
        (h :: r.1, r.2)
    else dispatchRun mh hd m rest

/-- `Dispatcher.Dispatch`.  The `select` between enqueuing the job and the
closed `done` channel is modelled by the `closed` flag: when the dispatcher is
shutting down the `done` branch returns nil with no processing; otherwise the
job is processed through the current handler snapshot and the caller receives
the processing result.  The second component is the ghost trace of invoked
handlers. -/
def dispatchCall {H : Type} (closed : Bool) (mh : H → Mail → Bool)
    (hd : H → Mail → Option String) (hs : List H) (m : Mail) :
    Option String × List H :=
  if closed then (none, [])
  else ((dispatchRun mh hd m hs).2, (dispatchRun mh hd m hs).1)

/-- Decidable list membership scan, used to model both Go's
`map[types.Handler]bool` lookups and the `handler == h` scan. -/
def memb {H : Type} [DecidableEq H] : List H → H → Bool
  | [], _ => false
  | x :: xs, h => if x = h then true else memb xs h

/-- The registry state of the dispatcher: the ordered `handlers` slice and
the key set of the `handlersMap` membership map. -/
structure DispState (H : Type) where
  handlers : List H
  handlersMap : List H
deriving DecidableEq, Repr

/-- One iteration of `Dispatcher.AddHandlers`' loop: append `h` and insert it
into the map only when the map does not already hold it. -/
def addOne {H : Type} [DecidableEq H] (s : DispState H) (h : H) : DispState H :=
  if memb s.handlersMap h then s
  else ⟨s.handlers ++ [h], h :: s.handlersMap⟩

/-- `Dispatcher.AddHandlers`: fold the loop over the arguments; returns nil. -/
def addHandlers {H : Type} [DecidableEq H] (s : DispState H) (l : List H) :
    DispState H × Option String :=
  (l.foldl addOne s, none)

/-- Removal of the first occurrence of `h`, as `RemoveHandlers`' indexed scan
with `break` does on the slice (and as `delete` does on the map's key set). -/
def removeFirst {H : Type} [DecidableEq H] : List H → H → List H
  | [], _ => []
  | x :: xs, h => if x = h then xs else x :: removeFirst xs h

/-- One iteration of `Dispatcher.RemoveHandlers`' loop: if `h` occurs in the
slice, drop its first occurrence and delete it from the map; otherwise leave
the state unchanged. -/
def removeOne {H : Type} [DecidableEq H] (s : DispState H) (h : H) : DispState H :=
  if memb s.handlers h then ⟨removeFirst s.handlers h, removeFirst s.handlersMap h⟩
  else s

/-- `Dispatcher.RemoveHandlers`: fold the loop over the arguments; returns nil. -/
def removeHandlers {H : Type} [DecidableEq H] (s : DispState H) (l : List H) :
    DispState H × Option String :=
  (l.foldl removeOne s, none)

/-- Registry consistency maintained by `New`/`AddHandlers`/`RemoveHandlers`:
the slice and the map key set are duplicate-free and hold the same handlers. -/
def dispInv {H : Type} (s : DispState H) : Prop :=
  s.handlers.Nodup ∧ s.handlersMap.Nodup ∧
    (∀ h ∈ s.handlersMap, h ∈ s.handlers) ∧ (∀ h ∈ s.handlers, h ∈ s.handlersMap)

/-! ## IMAP source (pkg/sources/imap.go)

Uids are Nat; `processedUIDs` keeps only the key set (the recorded times feed
the eviction sweep, which is not part of the verified claims).  The mailbox
view observed by one `checkNewMessages` tick carries the `SELECT` response
(`UidValidity`, `Messages`), the mailbox items with their fetch/parse
outcomes, and the terminal result of the `UidFetch` command. -/

/-- Mutable state of `IMAPSource` relevant to a tick. -/
structure ImapState where
  uidValidity : Nat
  processedUIDs : List Nat
  lastUID : Nat
deriving DecidableEq, Repr

/-- One mailbox item: its uid, and the observed body outcome —
`none` models `msg.GetBody(section) == nil`, `some none` a body whose
`utils.ParseMail` fails, `some (some pm)` a successfully parsed body. -/
structure ImapItem where
  uid : Nat
  body : Option (Option Mail)
deriving DecidableEq, Repr

/-- What the server presents to one `checkNewMessages` tick. -/
structure ImapServerView where
  uidValidity : Nat
  msgCount : Nat
  items : List ImapItem
  fetchErr : Option String
deriving DecidableEq, Repr

/-- `IMAPSource.markProcessed`: record the uid and move the watermark to it. -/
def imapMarkProcessed (s : ImapState) (uid : Nat) : ImapState :=
  ⟨s.uidValidity, uid :: s.processedUIDs, uid⟩

/-- The UIDVALIDITY check at the head of `checkNewMessages`: a change away
from a previously recorded non-zero token clears the dedup set and the
watermark; a first observation just records the token. -/
def validityUpdate (s : ImapState) (v : Nat) : ImapState :=
  let s1 : ImapState :=
    if s.uidValidity ≠ 0 ∧ s.uidValidity ≠ v then ⟨v, [], 0⟩ else s
  if s1.uidValidity = 0 then ⟨v, s1.processedUIDs, s1.lastUID⟩ else s1

/-- The `UidSearch` criterion: with a positive watermark only items with
uid ≥ watermark+1 are requested; otherwise the criterion is unrestricted. -/
def searchUids (w : Nat) (items : List ImapItem) : List ImapItem :=
  if 0 < w then items.filter (fun it => w < it.uid) else items

/-- Result of one polling tick: the new source state, the ghost trace of
mails passed to `Dispatch`, and the error returned by the tick. -/
structure ImapTick where
  state : ImapState
  calls : List Mail
  res : Option String
deriving DecidableEq, Repr

/-- The message loop of `IMAPSource.checkNewMessages`: skip already-processed
uids, skip items with no body, skip items whose parse fails, stamp the id
`"imap-<uidValidity>-<uid>"`, dispatch (a dispatch error aborts the batch and
is returned), and mark successfully dispatched uids. -/
def imapProcess (d : Mail → Option String) :
    ImapState → List ImapItem → ImapTick
  | s, [] => ⟨s, [], none⟩
  | s, it :: rest =>
    if memb s.processedUIDs it.uid then imapProcess d s rest
    else
      match it.body with
      | none => imapProcess d s rest
      | some none => imapProcess d s rest
      | some (some pm) =>
        let m := { pm with
          id := "imap-" ++ toString s.uidValidity ++ "-" ++ toString it.uid }
        match d m with
        | some e => ⟨s, [m], some e⟩
        | none =>
          let r := imapProcess d (imapMarkProcessed s it.uid) rest
          ⟨r.state, m :: r.calls, r.res⟩

/-- After a loop that completed without a dispatch error, the tick returns
the result of awaiting the `UidFetch` goroutine (`return <-done`). -/
def imapFinish (r : ImapTick) (fetchErr : Option String) : ImapTick :=
  ⟨r.state, r.calls,
    match r.res with
    | some e => some e
    | none => fetchErr⟩

/-- One tick of `IMAPSource.checkNewMessages` over an observed mailbox view:
UIDVALIDITY handling, the empty-mailbox and empty-search early returns, then
the fetch loop followed by the `UidFetch` completion status. -/
def imapCheckNewMessages (d : Mail → Option String) (s : ImapState)
    (srv : ImapServerView) : ImapTick :=
  let s1 := validityUpdate s srv.uidValidity
  if srv.msgCount = 0 then ⟨s1, [], none⟩
  else
    let found := searchUids s1.lastUID srv.items
    if found = [] then ⟨s1, [], none⟩
    else imapFinish (imapProcess d s1 found) srv.fetchErr

/-! ## POP3 source (pkg/sources/pop3.go) -/

/-- One entry of the parsed UIDL listing, together with the observed outcome
of retrieving it: whether the `RETR` command was accepted, and the raw line
stream the server then produced. -/
structure Pop3Item where
  num : Nat
  uid : String
  retrOk : Bool
  lines : List String
deriving DecidableEq, Repr

/-- Mutable state of `POP3Source` relevant to a tick (the key set of
`processedMsgs`). -/
structure Pop3State where
  processedMsgs : List String
deriving DecidableEq, Repr

/-- Result of one POP3 tick. -/
structure Pop3Tick where
  state : Pop3State
  calls : List Mail
  res : Option String
deriving DecidableEq, Repr

/-- The `RETR` body-reading loop: accumulate each line verbatim until a line
equal to ".\r\n", which is consumed and excluded; a stream that ends before
the terminator is a read error (`ReadString` fails), modelled as `none`. -/
def readBody : List String → Option String
  | [] => none
  | l :: ls =>
    if l = ".\r\n" then some ""
    else
      match readBody ls with
      | none => none
      | some rest => some (l ++ rest)

/-- The message loop of `POP3Source.checkNewMessages`: skip uids already in
the dedup set, skip items whose `RETR` errs, abort the tick on a read error,
skip items whose parse fails, stamp the id `"pop3-<uid>"`, dispatch (a
dispatch error aborts the batch and is returned), and mark successfully
dispatched uids. -/
def pop3Process (d : Mail → Option String) (parse : String → Option Mail) :
    Pop3State → List Pop3Item → Pop3Tick
  | s, [] => ⟨s, [], none⟩
  | s, it :: rest =>
    if memb s.processedMsgs it.uid then pop3Process d parse s rest
    else if !it.retrOk then pop3Process d parse s rest
    else
      match readBody it.lines with
      | none => ⟨s, [], some "read error"⟩
      | some dat =>
        match parse dat with
        | none => pop3Process d parse s rest
        | some pm =>
          let m := { pm with id := "pop3-" ++ it.uid }
          match d m with
          | some e => ⟨s, [m], some e⟩
          | none =>
            let r := pop3Process d parse ⟨it.uid :: s.processedMsgs⟩ rest
            ⟨r.state, m :: r.calls, r.res⟩

/-! ## MailHog (REST API) source (pkg/sources/mailhog.go) -/

/-- One item of the API response: the server-assigned message id and the raw
message data. -/
structure MailHogItem where
  mid : String
  raw : String
deriving DecidableEq, Repr

/-- Mutable state of `MailHogSource` relevant to a tick. -/
structure MailHogState where
  processedIDs : List String
  lastID : String
deriving DecidableEq, Repr

/-- Result of one MailHog tick. -/
structure MailHogTick where
  state : MailHogState
  calls : List Mail
  res : Option String
deriving DecidableEq, Repr

/-- The item loop of `MailHogSource.checkNewMessages`, already in the
oldest-first traversal order: skip processed ids, skip parse failures, stamp
the server id and the source name, dispatch (an error aborts and is wrapped),
mark on success, and when the newest item (the last one traversed) is
successfully processed record it as `lastID`. -/
def mailhogProcess (d : Mail → Option String) (parse : String → Option Mail)
    (name : String) : MailHogState → List MailHogItem → MailHogTick
  | s, [] => ⟨s, [], none⟩
  | s, it :: rest =>
    if memb s.processedIDs it.mid then mailhogProcess d parse name s rest
    else
      match parse it.raw with
      | none => mailhogProcess d parse name s rest
      | some pm =>
        let m := { pm with id := it.mid, source := name }
        match d m with
        | some e => ⟨s, [m], some ("dispatch error: " ++ e)⟩
        | none =>
          let s1 : MailHogState := ⟨it.mid :: s.processedIDs, s.lastID⟩
          let s2 := if rest.isEmpty then ⟨s1.processedIDs, it.mid⟩ else s1
          let r := mailhogProcess d parse name s2 rest
          ⟨r.state, m :: r.calls, r.res⟩

/-- One tick of `MailHogSource.checkNewMessages`: the API items arrive
newest-first and the loop walks them in reverse (oldest first). -/
def mailhogCheckNewMessages (d : Mail → Option String)
    (parse : String → Option Mail) (name : String) (s : MailHogState)
    (items : List MailHogItem) : MailHogTick :=
  mailhogProcess d parse name s items.reverse

/-! ## SMTP push listener (pkg/sources/smtp.go) -/

/-- The envelope state a `Session` accumulates (`from` and `to` fields). -/
structure SessionState where
  sender : String
  rcpts : List String
deriving DecidableEq, Repr

/-- The envelope-phase commands a session can receive. -/
inductive SmtpCmd where
  | mailCmd (f : String)
  | rcptCmd (t : String)
  | rst
deriving DecidableEq, Repr

/-- `Session.Mail` / `Session.Rcpt` / `Session.Reset`. -/
def sessionStep : SessionState → SmtpCmd → SessionState
  | s, .mailCmd f => ⟨f, s.rcpts⟩
  | s, .rcptCmd t => ⟨s.sender, s.rcpts ++ [t]⟩
  | _, .rst => ⟨"", []⟩

/-- A whole envelope phase: fold the received commands over a session state. -/
def sessionRunCmds (s : SessionState) (cs : List SmtpCmd) : SessionState :=
  cs.foldl sessionStep s

/-- Observable outcome of `Session.Data`: the parse error propagated to the
protocol layer, the out-of-bounds index on `From[0]`/`To[0]` (a Go runtime
panic, surfaced as a distinct failure in this total embedding), or the mail
passed to `Dispatch` together with the dispatcher's returned error. -/
inductive DataResult where
  | parseError
  | indexPanic
  | dispatched (m : Mail) (r : Option String)
deriving DecidableEq, Repr

/-- `Session.Data` after the body was read: parse, then fill the message id
from `MessageID` when empty, then fall back to
`"<date>:<From[0]>:<To[0]>"` (indexing without an emptiness guard), then
dispatch.  The session's accumulated envelope state is the receiver and is
never consulted. -/
def sessionData (_sess : SessionState) (parsed : Option Mail)
    (d : Mail → Option String) : DataResult :=
  match parsed with
  | none => .parseError
  | some pm =>
    let id1 := if pm.id = "" then pm.messageID else pm.id
    if id1 = "" then
      match pm.fromAddrs.head?, pm.toAddrs.head? with
      | some f, some t =>
        let m := { pm with id := pm.date ++ ":" ++ f ++ ":" ++ t }
        .dispatched m (d m)
      | some _, none => .indexPanic
      | none, _ => .indexPanic
    else
      let m := { pm with id := id1 }
      .dispatched m (d m)

/-! ## Concrete values used by witnesses and counterexamples -/

/-- A concrete parsed mail used in witness runs. -/
def mEx : Mail :=
  ⟨"", "", "hello", "2024-01-01", ["a@x"], ["b@y"], "body", ""⟩

/-- A dispatcher stub that accepts every mail. -/
def dOk : Mail → Option String := fun _ => none

/-- A parser stub under which every body parses to `mEx`. -/
def pOk : String → Option Mail := fun _ => some mEx

/-- A parser stub under which no body parses. -/
def pFail : String → Option Mail := fun _ => none

/-- A concrete mailbox view for the IMAP counterexample: two messages, the
first unparseable, the second fine. -/
def srvEx : ImapServerView :=
  ⟨100, 2, [⟨1, some none⟩, ⟨2, some (some mEx)⟩], none⟩

/-- A concrete mailbox view whose validity token 9 differs from the stored
token 5 of the state it is observed against. -/
def srvNewTok : ImapServerView :=
  ⟨9, 2, [⟨1, some none⟩, ⟨2, some (some mEx)⟩], none⟩

/-- A concrete mailbox view whose validity token matches a stored token 5. -/
def srvOldTok : ImapServerView := ⟨5, 0, [], none⟩

/-- A match predicate accepting every mail. -/
def mhW : Nat → Mail → Bool := fun _ _ => true

/-- A handler behaviour where handler 1 fails with "boom" and the others
succeed. -/
def hdW : Nat → Mail → Option String := fun h _ => if h = 1 then some "boom" else none

/-- A handler behaviour where every handler succeeds. -/
def hdN : Nat → Mail → Option String := fun _ _ => none

/-! ## Dispatcher chain lemmas -/

section DispatchLemmas

variable {H : Type} (mh : H → Mail → Bool) (hd : H → Mail → Option String) (m : Mail)

theorem dispatchToHandlers_eq_run (hs : List H) :
    dispatchToHandlers mh hd m hs = (dispatchRun mh hd m hs).2 := by
  induction hs with
  | nil => rfl
  | cons h rest ih =>
    by_cases hm : mh h m
    · cases he : hd h m <;> simp [dispatchToHandlers, dispatchRun, hm, he, ih]
    · simp [dispatchToHandlers, dispatchRun, hm, ih]

theorem dispatchRun_cons (h : H) (rest : List H) :
    dispatchRun mh hd m (h :: rest) =
      if mh h m then
        match hd h m with
        | some e => ([h], some e)
        | none => (h :: (dispatchRun mh hd m rest).1, (dispatchRun mh hd m rest).2)
      else dispatchRun mh hd m rest := rfl

theorem dispatchRun_append (l1 l2 : List H) :
    dispatchRun mh hd m (l1 ++ l2) =
      match (dispatchRun mh hd m l1).2 with
      | some _ => dispatchRun mh hd m l1
      | none => ((dispatchRun mh hd m l1).1 ++ (dispatchRun mh hd m l2).1,
                 (dispatchRun mh hd m l2).2) := by
  induction l1 with
  | nil => simp [dispatchRun]
  | cons h rest ih =>
    by_cases hm : mh h m
    · cases he : hd h m with
      | some e => simp [List.cons_append, dispatchRun_cons, hm, he]
      | none =>
        simp only [List.cons_append, dispatchRun_cons, hm, if_true, he]
        rw [ih]
        cases hr : (dispatchRun mh hd m rest).2 <;> simp [hr]
    · simp only [List.cons_append, dispatchRun_cons, hm, Bool.false_eq_true, if_false, ih]

theorem dispatchRun_all_none (hs : List H)
    (hall : ∀ h ∈ hs, mh h m = true → hd h m = none) :
    dispatchRun mh hd m hs = (hs.filter (fun h => mh h m), none) := by
  induction hs with
  | nil => rfl
  | cons h rest ih =>
    have hrest : ∀ h2 ∈ rest, mh h2 m = true → hd h2 m = none := by
      intro h2 h2m; exact hall h2 (List.mem_cons_of_mem _ h2m)
    by_cases hm : mh h m
    · have hnone := hall h (List.mem_cons_self _ _) hm
      simp [dispatchRun, hm, hnone, ih hrest, List.filter_cons]
    · simp [dispatchRun, hm, ih hrest, List.filter_cons]

theorem dispatchRun_none_all (hs : List H)
    (hres : (dispatchRun mh hd m hs).2 = none) :
    ∀ h ∈ hs, mh h m = true → hd h m = none := by
  induction hs with
  | nil => intro h hmem; exact absurd hmem (List.not_mem_nil h)
  | cons h rest ih =>
    intro h2 h2mem hm2
    by_cases hm : mh h m
    · cases he : hd h m with
      | some e => rw [dispatchRun, if_pos hm, he] at hres; exact absurd hres (by simp)
      | none =>
        rw [dispatchRun, if_pos hm, he] at hres
        rcases List.mem_cons.mp h2mem with rfl | h2rest
        · exact he
        · exact ih (by simpa using hres) h2 h2rest hm2
    · rw [dispatchRun, if_neg hm] at hres
      rcases List.mem_cons.mp h2mem with rfl | h2rest
      · exact absurd hm2 (by simp [hm])
      · exact ih hres h2 h2rest hm2

theorem dispatchRun_trace_subset (hs : List H) :
    ∀ h ∈ (dispatchRun mh hd m hs).1, h ∈ hs := by
  induction hs with
  | nil => intro h hmem; simp [dispatchRun] at hmem
  | cons h rest ih =>
    intro h2 h2mem
    by_cases hm : mh h m
    · cases he : hd h m with
      | some e =>
        rw [dispatchRun, if_pos hm, he] at h2mem
        simp only [List.mem_singleton] at h2mem
        simp [h2mem]
      | none =>
        rw [dispatchRun, if_pos hm, he] at h2mem
        rcases List.mem_cons.mp h2mem with rfl | h2tail
        · simp
        · exact List.mem_cons_of_mem _ (ih h2 h2tail)
    · rw [dispatchRun, if_neg hm] at h2mem
      exact List.mem_cons_of_mem _ (ih h2 h2mem)

theorem dispatchRun_trace_match (hs : List H) :
    ∀ h ∈ (dispatchRun mh hd m hs).1, mh h m = true := by
  induction hs with
  | nil => intro h hmem; simp [dispatchRun] at hmem
  | cons h rest ih =>
    intro h2 h2mem
    by_cases hm : mh h m
    · cases he : hd h m with
      | some e =>
        rw [dispatchRun, if_pos hm, he] at h2mem
        simp only [List.mem_singleton] at h2mem
        simpa [h2mem] using hm
      | none =>
        rw [dispatchRun, if_pos hm, he] at h2mem
        rcases List.mem_cons.mp h2mem with rfl | h2tail
        · exact hm
        · exact ih h2 h2tail
    · rw [dispatchRun, if_neg hm] at h2mem
      exact ih h2 h2mem

end DispatchLemmas

/-- Claim C1: processing a message runs it through the snapshot of the
handler list in registration order; a handler's `Handle` is invoked exactly
when its `Match` is true and every earlier matching handler's `Handle`
returned nil; the first error of a matching handler is the value returned by
the processing and no handler after it runs; if no matching handler errs the
processing returns nil. -/
theorem dispatch_chain_claim {H : Type} (mh : H → Mail → Bool)
    (hd : H → Mail → Option String) (m : Mail) (hs : List H)
    (hnd : hs.Nodup) :
    (dispatchToHandlers mh hd m hs = (dispatchRun mh hd m hs).2) ∧
    (∀ pre h post, hs = pre ++ h :: post →
      (h ∈ (dispatchRun mh hd m hs).1 ↔
        (mh h m = true ∧ ∀ h2 ∈ pre, mh h2 m = true → hd h2 m = none))) ∧
    (∀ pre h post e, hs = pre ++ h :: post → mh h m = true → hd h m = some e →
      (∀ h2 ∈ pre, mh h2 m = true → hd h2 m = none) →
      ((dispatchRun mh hd m hs).2 = some e ∧
        ∀ h3 ∈ post, h3 ∉ (dispatchRun mh hd m hs).1)) ∧
    ((∀ h ∈ hs, mh h m = true → hd h m = none) →
      (dispatchRun mh hd m hs).2 = none) := by
  refine ⟨dispatchToHandlers_eq_run mh hd m hs, ?_, ?_, ?_⟩
  · intro pre h post hsplit
    subst hsplit
    rw [List.nodup_append] at hnd
    have hnotpre : h ∉ pre := fun hmem => hnd.2.2 hmem (List.mem_cons_self _ _)
    constructor
    · intro htr
      refine ⟨dispatchRun_trace_match mh hd m _ h htr, ?_⟩
      cases hp : (dispatchRun mh hd m pre).2 with
      | none => exact dispatchRun_none_all mh hd m pre hp
      | some e0 =>
        have happ := dispatchRun_append mh hd m pre (h :: post)
        rw [hp] at happ
        simp only [] at happ
        rw [happ] at htr
        exact absurd (dispatchRun_trace_subset mh hd m pre h htr) hnotpre
    · rintro ⟨hm, hprenone⟩
      have hpre := dispatchRun_all_none mh hd m pre hprenone
      have happ := dispatchRun_append mh hd m pre (h :: post)
      rw [hpre] at happ
      simp only [] at happ
      rw [happ]
      apply List.mem_append_right
      cases he : hd h m <;> simp [dispatchRun_cons, hm, he]
  · intro pre h post e hsplit hm he hprenone
    subst hsplit
    rw [List.nodup_append] at hnd
    have hnotpost : h ∉ post := (List.nodup_cons.mp hnd.2.1).1
    have hpre := dispatchRun_all_none mh hd m pre hprenone
    have hstep : dispatchRun mh hd m (h :: post) = ([h], some e) := by
      simp [dispatchRun_cons, hm, he]
    have happ := dispatchRun_append mh hd m pre (h :: post)
    rw [hpre] at happ
    simp only [] at happ
    rw [hstep] at happ
    rw [happ]
    refine ⟨rfl, ?_⟩
    intro h3 h3post h3mem
    rcases List.mem_append.mp h3mem with h3f | h3h
    · exact hnd.2.2 (List.mem_of_mem_filter h3f) (List.mem_cons_of_mem _ h3post)
    · rw [List.mem_singleton] at h3h
      exact hnotpost (h3h ▸ h3post)
  · intro hall
    rw [dispatchRun_all_none mh hd m hs hall]

/-- Witness for C1: the spec's own scenario, handlers `[0,1,2]`, all matching,
handler 1 fails — processing returns handler 1's error and handler 2 never
runs. -/
theorem dispatch_chain_claim_witness :
    dispatchToHandlers mhW hdW mEx [0, 1, 2] = (dispatchRun mhW hdW mEx [0, 1, 2]).2 ∧
    (dispatchRun mhW hdW mEx [0, 1, 2]).2 = some "boom" ∧
    ∀ h3 ∈ [2], h3 ∉ (dispatchRun mhW hdW mEx [0, 1, 2]).1 := by
  obtain ⟨h1, _, h3, _⟩ := dispatch_chain_claim mhW hdW mEx [0, 1, 2] (by decide)
  obtain ⟨ha, hb⟩ := h3 [0] 1 [2] "boom" rfl rfl rfl (by decide)
  exact ⟨h1, ha, hb⟩

/-- Claim C4: a `Dispatch` call that observes the dispatcher shutting down
returns nil with no handler invoked; this outcome coincides with the one a
caller sees when every matching handler succeeds, so shutdown is
indistinguishable from success. -/
theorem dispatch_closed_claim {H : Type} (mh : H → Mail → Bool)
    (hd : H → Mail → Option String) (hs : List H) (m : Mail) :
    dispatchCall true mh hd hs m = (none, []) ∧
    ((∀ h ∈ hs, mh h m = true → hd h m = none) →
      (dispatchCall false mh hd hs m).1 = none) := by
  refine ⟨rfl, ?_⟩
  intro hall
  simp [dispatchCall, dispatchRun_all_none mh hd m hs hall]

/-- Witness for C4 at a concrete handler list. -/
theorem dispatch_closed_claim_witness :
    dispatchCall true mhW hdN [0, 1] mEx = (none, []) ∧
    (dispatchCall false mhW hdN [0, 1] mEx).1 = none := by
  obtain ⟨h1, h2⟩ := dispatch_closed_claim mhW hdN [0, 1] mEx
  exact ⟨h1, h2 (by decide)⟩

/-! ## Handler registry lemmas -/

theorem memb_iff {H : Type} [DecidableEq H] (l : List H) (h : H) :
    memb l h = true ↔ h ∈ l := by
  induction l with
  | nil => simp [memb]
  | cons x xs ih =>
    by_cases hx : x = h
    · simp [memb, hx]
    · simp [memb, hx, ih, List.mem_cons, Ne.symm hx]

theorem removeFirst_eq_filter {H : Type} [DecidableEq H] (l : List H) (h : H)
    (hnd : l.Nodup) : removeFirst l h = l.filter (fun x => decide (x ≠ h)) := by
  induction l with
  | nil => rfl
  | cons x xs ih =>
    rw [List.nodup_cons] at hnd
    by_cases hx : x = h
    · subst hx
      rw [removeFirst, if_pos rfl, List.filter_cons]
      simp only [ne_eq, not_true_eq_false, decide_False, Bool.false_eq_true, if_false]
      symm
      apply List.filter_eq_self.mpr
      intro a ha
      simp only [ne_eq, decide_eq_true_eq]
      intro he
      exact hnd.1 (he ▸ ha)
    · rw [removeFirst, if_neg hx, List.filter_cons]
      simp only [ne_eq, hx, not_false_eq_true, decide_True, if_true]
      rw [ih hnd.2]

theorem dispInv_addOne {H : Type} [DecidableEq H] (s : DispState H) (h : H)
    (hinv : dispInv s) : dispInv (addOne s h) := by
  obtain ⟨hn1, hn2, hm1, hm2⟩ := hinv
  unfold addOne
  by_cases hm : memb s.handlersMap h
  · rw [if_pos hm]; exact ⟨hn1, hn2, hm1, hm2⟩
  · rw [if_neg hm]
    have hnmap : h ∉ s.handlersMap := fun hh => hm ((memb_iff _ _).mpr hh)
    have hnhs : h ∉ s.handlers := fun hh => hnmap (hm2 h hh)
    refine ⟨?_, List.nodup_cons.mpr ⟨hnmap, hn2⟩, ?_, ?_⟩
    · rw [List.nodup_append]
      exact ⟨hn1, List.nodup_singleton h,
        fun x hx hx1 => hnhs ((List.mem_singleton.mp hx1) ▸ hx)⟩
    · intro x hx
      rcases List.mem_cons.mp hx with rfl | hxm
      · exact List.mem_append_right _ (List.mem_singleton.mpr rfl)
      · exact List.mem_append_left _ (hm1 x hxm)
    · intro x hx
      rcases List.mem_append.mp hx with hxh | hx1
      · exact List.mem_cons_of_mem _ (hm2 x hxh)
      · exact List.mem_cons.mpr (Or.inl (List.mem_singleton.mp hx1))

theorem addHandlers_go (H : Type) [DecidableEq H] (l : List H) :
    ∀ s : DispState H, dispInv s →
      ∃ t, (l.foldl addOne s).handlers = s.handlers ++ t ∧
        (∀ h ∈ t, h ∉ s.handlers) ∧ (∀ h ∈ t, h ∈ l) := by
  induction l with
  | nil => exact fun s _ => ⟨[], by simp, by simp, by simp⟩
  | cons h rest ih =>
    intro s hinv
    by_cases hm : memb s.handlersMap h
    · have heq : addOne s h = s := by unfold addOne; rw [if_pos hm]
      rw [List.foldl_cons, heq]
      obtain ⟨t, ht1, ht2, ht3⟩ := ih s hinv
      exact ⟨t, ht1, ht2, fun x hx => List.mem_cons_of_mem _ (ht3 x hx)⟩
    · have heq : addOne s h = ⟨s.handlers ++ [h], h :: s.handlersMap⟩ := by
        unfold addOne; rw [if_neg hm]
      have hinv' : dispInv (⟨s.handlers ++ [h], h :: s.handlersMap⟩ : DispState H) := by
        rw [← heq]; exact dispInv_addOne s h hinv
      have hnhs : h ∉ s.handlers :=
        fun hh => hm ((memb_iff _ _).mpr (hinv.2.2.2 h hh))
      rw [List.foldl_cons, heq]
      obtain ⟨t, ht1, ht2, ht3⟩ := ih _ hinv'
      refine ⟨h :: t, ?_, ?_, ?_⟩
      · rw [ht1]; simp
      · intro x hx
        rcases List.mem_cons.mp hx with rfl | hxt
        · exact hnhs
        · exact fun hxs => ht2 x hxt (List.mem_append_left _ hxs)
      · intro x hx
        rcases List.mem_cons.mp hx with rfl | hxt
        · exact List.mem_cons_self _ _
        · exact List.mem_cons_of_mem _ (ht3 x hxt)

theorem addHandlers_idem {H : Type} [DecidableEq H] (s : DispState H) (l : List H)
    (hinv : dispInv s) : (∀ h ∈ l, h ∈ s.handlers) → l.foldl addOne s = s := by
  induction l with
  | nil => exact fun _ => rfl
  | cons h rest ih =>
    intro hall
    have hm : memb s.handlersMap h = true :=
      (memb_iff _ _).mpr (hinv.2.2.2 h (hall h (List.mem_cons_self _ _)))
    have heq : addOne s h = s := by unfold addOne; rw [if_pos hm]
    rw [List.foldl_cons, heq]
    exact ih fun x hx => hall x (List.mem_cons_of_mem _ hx)

theorem removeOne_handlers {H : Type} [DecidableEq H] (s : DispState H) (h : H)
    (hinv : dispInv s) :
    (removeOne s h).handlers = s.handlers.filter (fun x => decide (x ≠ h)) := by
  unfold removeOne
  by_cases hm : memb s.handlers h
  · rw [if_pos hm]; exact removeFirst_eq_filter _ _ hinv.1
  · rw [if_neg hm]
    symm
    apply List.filter_eq_self.mpr
    intro a ha
    simp only [ne_eq, decide_eq_true_eq]
    intro he
    exact hm ((memb_iff _ _).mpr (he ▸ ha))

theorem dispInv_removeOne {H : Type} [DecidableEq H] (s : DispState H) (h : H)
    (hinv : dispInv s) : dispInv (removeOne s h) := by
  obtain ⟨hn1, hn2, hm1, hm2⟩ := hinv
  unfold removeOne
  by_cases hm : memb s.handlers h
  · rw [if_pos hm]
    rw [removeFirst_eq_filter _ _ hn1, removeFirst_eq_filter _ _ hn2]
    refine ⟨hn1.filter _, hn2.filter _, ?_, ?_⟩
    · intro x hx
      rw [List.mem_filter] at hx ⊢
      exact ⟨hm1 x hx.1, hx.2⟩
    · intro x hx
      rw [List.mem_filter] at hx ⊢
      exact ⟨hm2 x hx.1, hx.2⟩
  · rw [if_neg hm]; exact ⟨hn1, hn2, hm1, hm2⟩

theorem removeHandlers_go (H : Type) [DecidableEq H] (l : List H) :
    ∀ s : DispState H, dispInv s →
      (l.foldl removeOne s).handlers = s.handlers.filter (fun x => !(memb l x)) := by
  induction l with
  | nil =>
    intro s _
    simp [memb]
  | cons h rest ih =>
    intro s hinv
    rw [List.foldl_cons, ih _ (dispInv_removeOne s h hinv), removeOne_handlers s h hinv,
      List.filter_filter]
    apply List.filter_congr
    intro x _
    by_cases hxh : x = h
    · subst hxh; simp [memb]
    · simp [memb, hxh, Ne.symm hxh]

/-- Claim C8: `AddHandlers` appends exactly the not-yet-registered arguments
after the existing handlers (so re-adding a registered handler is a no-op and
the whole call is idempotent on already-registered input), `RemoveHandlers`
removes exactly the given handlers keeping the remaining order, and both
calls return nil. -/
theorem handler_registry_claim {H : Type} [DecidableEq H] (s : DispState H)
    (l : List H) (hinv : dispInv s) :
    (∃ t, (addHandlers s l).1.handlers = s.handlers ++ t ∧
      (∀ h ∈ t, h ∉ s.handlers) ∧ (∀ h ∈ t, h ∈ l)) ∧
    ((∀ h ∈ l, h ∈ s.handlers) → addHandlers s l = (s, none)) ∧
    ((removeHandlers s l).1.handlers = s.handlers.filter (fun x => !(memb l x))) ∧
    (addHandlers s l).2 = none ∧ (removeHandlers s l).2 = none := by
  refine ⟨addHandlers_go H l s hinv, ?_, removeHandlers_go H l s hinv, rfl, rfl⟩
  intro hall
  unfold addHandlers
  rw [addHandlers_idem s l hinv hall]

/-- Witness for C8 on a concrete registry: adding `[11, 12]` to `[10, 11]`
appends only `12`, re-adding `[11]` is a no-op, removing `[11, 12]` keeps
`[10]`. -/
theorem handler_registry_claim_witness :
    (∃ t, (addHandlers (⟨[10, 11], [11, 10]⟩ : DispState Nat) [11, 12]).1.handlers
        = [10, 11] ++ t ∧
      (∀ h ∈ t, h ∉ ([10, 11] : List Nat)) ∧ (∀ h ∈ t, h ∈ ([11, 12] : List Nat))) ∧
    (addHandlers (⟨[10, 11], [11, 10]⟩ : DispState Nat) [11]
      = (⟨[10, 11], [11, 10]⟩, none)) ∧
    ((removeHandlers (⟨[10, 11], [11, 10]⟩ : DispState Nat) [11, 12]).1.handlers
      = [10, 11].filter (fun x => !(memb [11, 12] x))) := by
  obtain ⟨h1, _, h3, _, _⟩ :=
    handler_registry_claim (⟨[10, 11], [11, 10]⟩ : DispState Nat) [11, 12]
      (by unfold dispInv; decide)
  obtain ⟨_, h2, _, _, _⟩ :=
    handler_registry_claim (⟨[10, 11], [11, 10]⟩ : DispState Nat) [11]
      (by unfold dispInv; decide)
  exact ⟨h1, h2 (by decide), h3⟩

/-! ## IMAP validity/watermark lemmas -/

theorem validityUpdate_reset (s : ImapState) (v : Nat)
    (h1 : s.uidValidity ≠ 0) (h2 : s.uidValidity ≠ v) :
    validityUpdate s v = ⟨v, [], 0⟩ := by
  by_cases hv : v = 0 <;> simp [validityUpdate, h1, h2, hv]

theorem validityUpdate_keep (s : ImapState) (v : Nat)
    (h : s.uidValidity = v ∨ s.uidValidity = 0) :
    validityUpdate s v = ⟨v, s.processedUIDs, s.lastUID⟩ := by
  rcases h with h | h
  · subst h
    simp [validityUpdate]
  · by_cases hv : s.uidValidity = v <;> simp [validityUpdate, h, hv]

theorem validityUpdate_processed (s : ImapState) (v : Nat) :
    (validityUpdate s v).processedUIDs = s.processedUIDs ∨
      (validityUpdate s v).processedUIDs = [] := by
  by_cases h1 : s.uidValidity ≠ 0 ∧ s.uidValidity ≠ v
  · right; rw [validityUpdate_reset s v h1.1 h1.2]
  · left
    rw [Decidable.not_and_iff_or_not] at h1
    rcases h1 with h1 | h1
    · rw [Decidable.not_not] at h1
      rw [validityUpdate_keep s v (Or.inr h1)]
    · rw [Decidable.not_not] at h1
      rw [validityUpdate_keep s v (Or.inl h1)]

/-- Claim C2: a tick that observes a validity token different from a stored
non-initial token clears the dedup set and resets the watermark to 0 before
any item is processed, and then searches with the no-watermark criterion over
the whole mailbox; a tick with an unchanged token leaves dedup set and
watermark untouched. -/
theorem imap_validity_reset_claim (d : Mail → Option String) (s : ImapState)
    (srv : ImapServerView) :
    ((s.uidValidity ≠ 0 ∧ s.uidValidity ≠ srv.uidValidity) →
      (validityUpdate s srv.uidValidity = ⟨srv.uidValidity, [], 0⟩ ∧
        (srv.msgCount ≠ 0 →
          imapCheckNewMessages d s srv =
            (if srv.items = [] then (⟨⟨srv.uidValidity, [], 0⟩, [], none⟩ : ImapTick)
             else imapFinish (imapProcess d ⟨srv.uidValidity, [], 0⟩ srv.items)
               srv.fetchErr)))) ∧
    (s.uidValidity = srv.uidValidity → validityUpdate s srv.uidValidity = s) := by
  constructor
  · rintro ⟨h1, h2⟩
    have hval := validityUpdate_reset s srv.uidValidity h1 h2
    refine ⟨hval, ?_⟩
    intro hcount
    simp [imapCheckNewMessages, hval, hcount, searchUids]
  · intro he
    rw [validityUpdate_keep s srv.uidValidity (Or.inl he), ← he]

/-- Witness for C2: stored token 5 against observed token 9 clears the state;
against observed token 5 the state survives. -/
theorem imap_validity_reset_claim_witness :
    validityUpdate ⟨5, [1], 7⟩ srvNewTok.uidValidity = ⟨srvNewTok.uidValidity, [], 0⟩ ∧
    validityUpdate ⟨5, [1], 7⟩ srvOldTok.uidValidity = ⟨5, [1], 7⟩ := by
  refine ⟨((imap_validity_reset_claim dOk ⟨5, [1], 7⟩ srvNewTok).1 (by decide)).1, ?_⟩
  exact (imap_validity_reset_claim dOk ⟨5, [1], 7⟩ srvOldTok).2 (by decide)

theorem imapProcess_cons (d : Mail → Option String) (st : ImapState)
    (it : ImapItem) (rest : List ImapItem) :
    imapProcess d st (it :: rest) =
      if memb st.processedUIDs it.uid then imapProcess d st rest
      else
        match it.body with
        | none => imapProcess d st rest
        | some none => imapProcess d st rest
        | some (some pm) =>
          let m := { pm with
            id := "imap-" ++ toString st.uidValidity ++ "-" ++ toString it.uid }
          match d m with
          | some e => ⟨st, [m], some e⟩
          | none =>
            let r := imapProcess d (imapMarkProcessed st it.uid) rest
            ⟨r.state, m :: r.calls, r.res⟩ := rfl

theorem imapProcess_watermark (d : Mail → Option String) (l : List ImapItem) :
    ∀ st : ImapState, (l.map ImapItem.uid).Pairwise (· < ·) →
      (∀ it ∈ l, st.lastUID ≤ it.uid) →
      ∃ mk, (imapProcess d st l).state.processedUIDs = mk ++ st.processedUIDs ∧
        st.lastUID ≤ (imapProcess d st l).state.lastUID ∧
        (mk = [] → (imapProcess d st l).state.lastUID = st.lastUID) ∧
        (mk ≠ [] → (imapProcess d st l).state.lastUID ∈ mk ∧
          ∀ u ∈ mk, u ≤ (imapProcess d st l).state.lastUID) := by
  induction l with
  | nil =>
    intro st _ _
    exact ⟨[], by simp [imapProcess], Nat.le_refl _, fun _ => rfl, fun hne => absurd rfl hne⟩
  | cons it rest ih =>
    intro st hsort hge
    have hsort' : (rest.map ImapItem.uid).Pairwise (· < ·) :=
      (List.pairwise_cons.mp (by simpa using hsort)).2
    have hlt : ∀ it2 ∈ rest, it.uid < it2.uid := by
      intro it2 hit2
      exact (List.pairwise_cons.mp (by simpa using hsort)).1 it2.uid
        (List.mem_map_of_mem ImapItem.uid hit2)
    have hge' : ∀ it2 ∈ rest, st.lastUID ≤ it2.uid := by
      intro it2 hit2
      exact hge it2 (List.mem_cons_of_mem _ hit2)
    by_cases hmem : memb st.processedUIDs it.uid
    · rw [imapProcess_cons, if_pos hmem]
      exact ih st hsort' hge'
    · rw [imapProcess_cons, if_neg hmem]
      cases hbody : it.body with
      | none => exact ih st hsort' hge'
      | some ob =>
        cases ob with
        | none => exact ih st hsort' hge'
        | some pm =>
          simp only []
          cases hdm : d { pm with
              id := "imap-" ++ toString st.uidValidity ++ "-" ++ toString it.uid } with
          | some e =>
            exact ⟨[], by simp, Nat.le_refl _, fun _ => rfl, fun hne => absurd rfl hne⟩
          | none =>
            have hge2 : ∀ it2 ∈ rest, (imapMarkProcessed st it.uid).lastUID ≤ it2.uid := by
              intro it2 hit2
              exact Nat.le_of_lt (hlt it2 hit2)
            obtain ⟨mk, hmk1, hmk2, hmk3, hmk4⟩ :=
              ih (imapMarkProcessed st it.uid) hsort' hge2
            refine ⟨mk ++ [it.uid], ?_, ?_, ?_, ?_⟩
            · rw [hmk1]
              simp [imapMarkProcessed, List.append_assoc]
            · exact Nat.le_trans (hge it (List.mem_cons_self _ _)) hmk2
            · intro hcontra
              exact absurd hcontra (by simp)
            · intro _
              constructor
              · by_cases hmkE : mk = []
                · subst hmkE
                  have := hmk3 rfl
                  rw [this]
                  simp [imapMarkProcessed]
                · exact List.mem_append_left _ ((hmk4 hmkE).1)
              · intro u hu
                rcases List.mem_append.mp hu with hu1 | hu2
                · exact (hmk4 (List.ne_nil_of_mem hu1)).2 u hu1
                · rw [List.mem_singleton] at hu2
                  subst hu2
                  exact hmk2

theorem searchUids_sorted (w : Nat) (items : List ImapItem)
    (hsort : (items.map ImapItem.uid).Pairwise (· < ·)) :
    ((searchUids w items).map ImapItem.uid).Pairwise (· < ·) := by
  unfold searchUids
  by_cases hw : 0 < w
  · rw [if_pos hw]
    exact hsort.sublist (List.Sublist.map _ (List.filter_sublist items))
  · rw [if_neg hw]
    exact hsort

theorem searchUids_ge (w : Nat) (items : List ImapItem) :
    ∀ it ∈ searchUids w items, w ≤ it.uid := by
  unfold searchUids
  by_cases hw : 0 < w
  · rw [if_pos hw]
    intro it hit
    have := List.of_mem_filter hit
    exact Nat.le_of_lt (by simpa using this)
  · rw [if_neg hw]
    intro it _
    have : w = 0 := Nat.eq_zero_of_not_pos hw
    simp [this]

theorem searchUids_subset (w : Nat) (items : List ImapItem) :
    ∀ it ∈ searchUids w items, it ∈ items := by
  unfold searchUids
  by_cases hw : 0 < w
  · rw [if_pos hw]
    exact fun it hit => List.mem_of_mem_filter hit
  · rw [if_neg hw]
    exact fun it hit => hit

/-- Claim C6: within one validity generation (the observed token equals the
stored one, or no token was stored yet) and with the server listing uids in
ascending order, a tick never decreases the watermark, and afterwards the
watermark equals the highest uid marked as successfully dispatched in the
tick's batch — unchanged when nothing was dispatched. -/
theorem imap_watermark_claim (d : Mail → Option String) (s : ImapState)
    (srv : ImapServerView)
    (hgen : s.uidValidity = srv.uidValidity ∨ s.uidValidity = 0)
    (hsort : (srv.items.map ImapItem.uid).Pairwise (· < ·)) :
    s.lastUID ≤ (imapCheckNewMessages d s srv).state.lastUID ∧
    ∃ mk, (imapCheckNewMessages d s srv).state.processedUIDs = mk ++ s.processedUIDs ∧
      (mk = [] → (imapCheckNewMessages d s srv).state.lastUID = s.lastUID) ∧
      (mk ≠ [] → (imapCheckNewMessages d s srv).state.lastUID ∈ mk ∧
        ∀ u ∈ mk, u ≤ (imapCheckNewMessages d s srv).state.lastUID) := by
  have hval := validityUpdate_keep s srv.uidValidity hgen
  unfold imapCheckNewMessages
  rw [hval]
  by_cases hc : srv.msgCount = 0
  · rw [if_pos hc]
    exact ⟨Nat.le_refl _, [], rfl, fun _ => rfl, fun hne => absurd rfl hne⟩
  · rw [if_neg hc]
    by_cases hf : searchUids s.lastUID srv.items = []
    · rw [if_pos hf]
      exact ⟨Nat.le_refl _, [], rfl, fun _ => rfl, fun hne => absurd rfl hne⟩
    · rw [if_neg hf]
      have hsort2 := searchUids_sorted s.lastUID srv.items hsort
      have hge : ∀ it ∈ searchUids s.lastUID srv.items,
          (⟨srv.uidValidity, s.processedUIDs, s.lastUID⟩ : ImapState).lastUID ≤ it.uid :=
        fun it hit => searchUids_ge s.lastUID srv.items it hit
      obtain ⟨mk, hmk1, hmk2, hmk3, hmk4⟩ :=
        imapProcess_watermark d (searchUids s.lastUID srv.items)
          ⟨srv.uidValidity, s.processedUIDs, s.lastUID⟩ hsort2 hge
      exact ⟨hmk2, mk, by simpa [imapFinish] using hmk1, by simpa [imapFinish] using hmk3,
        by simpa [imapFinish] using hmk4⟩

/-- Witness for C6: the spec's own scenario — token 100, watermark 0, three
messages with uids 1..3 that all parse and dispatch; the watermark becomes
the highest dispatched uid. -/
theorem imap_watermark_claim_witness :
    (0 : Nat) ≤ (imapCheckNewMessages dOk ⟨100, [], 0⟩
      ⟨100, 3, [⟨1, some (some mEx)⟩, ⟨2, some (some mEx)⟩, ⟨3, some (some mEx)⟩],
        none⟩).state.lastUID ∧
    ∃ mk, (imapCheckNewMessages dOk ⟨100, [], 0⟩
      ⟨100, 3, [⟨1, some (some mEx)⟩, ⟨2, some (some mEx)⟩, ⟨3, some (some mEx)⟩],
        none⟩).state.processedUIDs = mk ++ [] ∧
      (mk = [] → (imapCheckNewMessages dOk ⟨100, [], 0⟩
        ⟨100, 3, [⟨1, some (some mEx)⟩, ⟨2, some (some mEx)⟩, ⟨3, some (some mEx)⟩],
          none⟩).state.lastUID = 0) ∧
      (mk ≠ [] → (imapCheckNewMessages dOk ⟨100, [], 0⟩
        ⟨100, 3, [⟨1, some (some mEx)⟩, ⟨2, some (some mEx)⟩, ⟨3, some (some mEx)⟩],
          none⟩).state.lastUID ∈ mk ∧
        ∀ u ∈ mk, u ≤ (imapCheckNewMessages dOk ⟨100, [], 0⟩
          ⟨100, 3, [⟨1, some (some mEx)⟩, ⟨2, some (some mEx)⟩, ⟨3, some (some mEx)⟩],
            none⟩).state.lastUID) :=
  imap_watermark_claim dOk ⟨100, [], 0⟩
    ⟨100, 3, [⟨1, some (some mEx)⟩, ⟨2, some (some mEx)⟩, ⟨3, some (some mEx)⟩], none⟩
    (Or.inl rfl) (by decide)

/-! ## Parse-failure skip lemmas -/

theorem imapCheckNewMessages_eq (d : Mail → Option String) (s : ImapState)
    (srv : ImapServerView) :
    imapCheckNewMessages d s srv =
      (if srv.msgCount = 0 then (⟨validityUpdate s srv.uidValidity, [], none⟩ : ImapTick)
       else if searchUids (validityUpdate s srv.uidValidity).lastUID srv.items = [] then
         ⟨validityUpdate s srv.uidValidity, [], none⟩
       else imapFinish (imapProcess d (validityUpdate s srv.uidValidity)
         (searchUids (validityUpdate s srv.uidValidity).lastUID srv.items))
         srv.fetchErr) := rfl

theorem imapProcess_marked_src (d : Mail → Option String) (l : List ImapItem) :
    ∀ (st : ImapState) (u : Nat),
      memb (imapProcess d st l).state.processedUIDs u = true →
      memb st.processedUIDs u = true ∨
        ∃ it ∈ l, it.uid = u ∧ ∃ pm, it.body = some (some pm) := by
  induction l with
  | nil =>
    intro st u h
    exact Or.inl (by simpa [imapProcess] using h)
  | cons it rest ih =>
    intro st u h
    have step : (memb (imapProcess d st rest).state.processedUIDs u = true →
        memb st.processedUIDs u = true ∨
          ∃ it2 ∈ it :: rest, it2.uid = u ∧ ∃ pm, it2.body = some (some pm)) := by
      intro h2
      rcases ih st u h2 with h3 | ⟨it2, h4, h5, h6⟩
      · exact Or.inl h3
      · exact Or.inr ⟨it2, List.mem_cons_of_mem _ h4, h5, h6⟩
    by_cases hmem : memb st.processedUIDs it.uid
    · rw [imapProcess_cons, if_pos hmem] at h
      exact step h
    · rw [imapProcess_cons, if_neg hmem] at h
      cases hbody : it.body with
      | none =>
        rw [hbody] at h
        exact step h
      | some ob =>
        cases ob with
        | none =>
          rw [hbody] at h
          exact step h
        | some pm =>
          rw [hbody] at h
          simp only [] at h
          cases hdm : d { pm with
              id := "imap-" ++ toString st.uidValidity ++ "-" ++ toString it.uid } with
          | some e =>
            rw [hdm] at h
            exact Or.inl h
          | none =>
            rw [hdm] at h
            rcases ih (imapMarkProcessed st it.uid) u h with h3 | ⟨it2, h4, h5, h6⟩
            · by_cases hu : it.uid = u
              · exact Or.inr ⟨it, List.mem_cons_self _ _, hu, pm, hbody⟩
              · simp only [imapMarkProcessed, memb, hu, if_false] at h3
                exact Or.inl h3
            · exact Or.inr ⟨it2, List.mem_cons_of_mem _ h4, h5, h6⟩

theorem pop3Process_cons (d : Mail → Option String) (parse : String → Option Mail)
    (st : Pop3State) (it : Pop3Item) (rest : List Pop3Item) :
    pop3Process d parse st (it :: rest) =
      if memb st.processedMsgs it.uid then pop3Process d parse st rest
      else if !it.retrOk then pop3Process d parse st rest
      else
        match readBody it.lines with
        | none => ⟨st, [], some "read error"⟩
        | some dat =>
          match parse dat with
          | none => pop3Process d parse st rest
          | some pm =>
            let m := { pm with id := "pop3-" ++ it.uid }
            match d m with
            | some e => ⟨st, [m], some e⟩
            | none =>
              let r := pop3Process d parse ⟨it.uid :: st.processedMsgs⟩ rest
              ⟨r.state, m :: r.calls, r.res⟩ := rfl

theorem pop3Process_marked_src (d : Mail → Option String)
    (parse : String → Option Mail) (l : List Pop3Item) :
    ∀ (st : Pop3State) (u : String),
      memb (pop3Process d parse st l).state.processedMsgs u = true →
      memb st.processedMsgs u = true ∨
        ∃ it ∈ l, it.uid = u ∧
          ∃ dat pm, readBody it.lines = some dat ∧ parse dat = some pm := by
  induction l with
  | nil =>
    intro st u h
    exact Or.inl (by simpa [pop3Process] using h)
  | cons it rest ih =>
    intro st u h
    have step : (memb (pop3Process d parse st rest).state.processedMsgs u = true →
        memb st.processedMsgs u = true ∨
          ∃ it2 ∈ it :: rest, it2.uid = u ∧
            ∃ dat pm, readBody it2.lines = some dat ∧ parse dat = some pm) := by
      intro h2
      rcases ih st u h2 with h3 | ⟨it2, h4, h5, h6⟩
      · exact Or.inl h3
      · exact Or.inr ⟨it2, List.mem_cons_of_mem _ h4, h5, h6⟩
    by_cases hmem : memb st.processedMsgs it.uid
    · rw [pop3Process_cons, if_pos hmem] at h
      exact step h
    · rw [pop3Process_cons, if_neg hmem] at h
      cases hretr : it.retrOk with
      | false =>
        rw [hretr] at h
        simp only [Bool.not_false, if_true] at h
        exact step h
      | true =>
        rw [hretr] at h
        simp only [Bool.not_true, Bool.false_eq_true, if_false] at h
        cases hrb : readBody it.lines with
        | none =>
          rw [hrb] at h
          exact Or.inl h
        | some dat =>
          rw [hrb] at h
          simp only [] at h
          cases hp : parse dat with
          | none =>
            rw [hp] at h
            exact step h
          | some pm =>
            rw [hp] at h
            simp only [] at h
            cases hdm : d { pm with id := "pop3-" ++ it.uid } with
            | some e =>
              rw [hdm] at h
              exact Or.inl h
            | none =>
              rw [hdm] at h
              rcases ih ⟨it.uid :: st.processedMsgs⟩ u h with h3 | ⟨it2, h4, h5, h6⟩
              · by_cases hu : it.uid = u
                · exact Or.inr ⟨it, List.mem_cons_self _ _, hu, dat, pm, hrb, hp⟩
                · simp only [memb, hu, if_false] at h3
                  exact Or.inl h3
              · exact Or.inr ⟨it2, List.mem_cons_of_mem _ h4, h5, h6⟩

theorem memb_append {H : Type} [DecidableEq H] (a b : List H) (h : H) :
    memb (a ++ b) h = (memb a h || memb b h) := by
  induction a with
  | nil => simp [memb]
  | cons x xs ih =>
    by_cases hx : x = h
    · simp [memb, hx]
    · simp [memb, hx, ih]

theorem mailhogProcess_marked_src (d : Mail → Option String)
    (parse : String → Option Mail) (name : String) (l : List MailHogItem) :
    ∀ (s : MailHogState) (u : String),
      memb (mailhogProcess d parse name s l).state.processedIDs u = true →
      memb s.processedIDs u = true ∨
        ∃ it ∈ l, it.mid = u ∧ ∃ pm, parse it.raw = some pm := by
  induction l with
  | nil =>
    intro s u h
    exact Or.inl (by simpa [mailhogProcess] using h)
  | cons it rest ih =>
    intro s u h
    have step : memb (mailhogProcess d parse name s rest).state.processedIDs u = true →
        memb s.processedIDs u = true ∨
          ∃ it2 ∈ it :: rest, it2.mid = u ∧ ∃ pm, parse it2.raw = some pm := by
      intro h2
      rcases ih s u h2 with h3 | ⟨it2, h4, h5, h6⟩
      · exact Or.inl h3
      · exact Or.inr ⟨it2, List.mem_cons_of_mem _ h4, h5, h6⟩
    by_cases hmem : memb s.processedIDs it.mid
    · rw [mailhogProcess, if_pos hmem] at h
      exact step h
    · rw [mailhogProcess, if_neg hmem] at h
      cases hp : parse it.raw with
      | none =>
        rw [hp] at h
        exact step h
      | some pm =>
        rw [hp] at h
        simp only [] at h
        cases hdm : d { pm with id := it.mid, source := name } with
        | some e =>
          rw [hdm] at h
          exact Or.inl h
        | none =>
          rw [hdm] at h
          have hcont : ∀ s2 : MailHogState,
              s2.processedIDs = it.mid :: s.processedIDs →
              memb (mailhogProcess d parse name s2 rest).state.processedIDs u = true →
              memb s.processedIDs u = true ∨
                ∃ it2 ∈ it :: rest, it2.mid = u ∧ ∃ pm2, parse it2.raw = some pm2 := by
            intro s2 hpid h2
            rcases ih s2 u h2 with h3 | ⟨it2, h4, h5, h6⟩
            · rw [hpid] at h3
              by_cases hu : it.mid = u
              · exact Or.inr ⟨it, List.mem_cons_self _ _, hu, pm, hp⟩
              · simp only [memb, hu, if_false] at h3
                exact Or.inl h3
            · exact Or.inr ⟨it2, List.mem_cons_of_mem _ h4, h5, h6⟩
          cases hre : rest.isEmpty with
          | false =>
            rw [hre] at h
            exact hcont _ rfl h
          | true =>
            rw [hre] at h
            exact hcont _ rfl h

/-- Counterexample to C3 as stated: with the mailbox of `srvEx` (uid 1
unparseable, uid 2 fine) and a dispatcher accepting everything, one tick
leaves uid 1 unmarked but moves the watermark to 2, and the next tick's
search criterion no longer returns the skipped item — it is not retrievable
again. -/
theorem parse_skip_claim_counterexample :
    memb (imapCheckNewMessages dOk ⟨100, [], 0⟩ srvEx).state.processedUIDs 1 = false ∧
    (imapCheckNewMessages dOk ⟨100, [], 0⟩ srvEx).state.lastUID = 2 ∧
    searchUids (imapCheckNewMessages dOk ⟨100, [], 0⟩ srvEx).state.lastUID
      srvEx.items = [] := by
  decide

/-- Claim C3 as amended: in every polling source a parse-failed item is
skipped without being marked processed (first three conjuncts: IMAP, POP3,
MailHog), so for the set-filtered sources (POP3, REST/MailHog) the unmarked
item remains retrievable by the dedup-only filtering criterion and is
attempted again on a later tick; but for the IMAP-like source (last
conjunct), whenever a later item of the same batch is marked on successful
dispatch, the tick's final watermark is at least that item's uid — past the
failed item — and the failed item no longer satisfies the next search
criterion, so it is not re-fetched. -/
theorem parse_skip_amended :
    (∀ (d : Mail → Option String) (s : ImapState) (srv : ImapServerView)
      (it : ImapItem), it ∈ srv.items → it.body = some none →
      (srv.items.map ImapItem.uid).Nodup →
      memb s.processedUIDs it.uid = false →
      memb (imapCheckNewMessages d s srv).state.processedUIDs it.uid = false) ∧
    (∀ (d : Mail → Option String) (parse : String → Option Mail)
      (ps : Pop3State) (items : List Pop3Item) (it : Pop3Item) (dat : String),
      it ∈ items → it.retrOk = true → readBody it.lines = some dat →
      parse dat = none → (items.map Pop3Item.uid).Nodup →
      memb ps.processedMsgs it.uid = false →
      memb (pop3Process d parse ps items).state.processedMsgs it.uid = false) ∧
    (∀ (d : Mail → Option String) (parse : String → Option Mail) (name : String)
      (s : MailHogState) (items : List MailHogItem) (it : MailHogItem),
      it ∈ items → parse it.raw = none →
      (items.map MailHogItem.mid).Nodup →
      memb s.processedIDs it.mid = false →
      memb (mailhogCheckNewMessages d parse name s items).state.processedIDs it.mid
        = false) ∧
    (∀ (d : Mail → Option String) (s : ImapState) (srv : ImapServerView)
      (it : ImapItem) (u2 : Nat),
      (s.uidValidity = srv.uidValidity ∨ s.uidValidity = 0) →
      (srv.items.map ImapItem.uid).Pairwise (· < ·) →
      it ∈ srv.items → it.body = some none → it.uid < u2 →
      memb s.processedUIDs u2 = false →
      memb (imapCheckNewMessages d s srv).state.processedUIDs u2 = true →
      u2 ≤ (imapCheckNewMessages d s srv).state.lastUID ∧
        it ∉ searchUids (imapCheckNewMessages d s srv).state.lastUID srv.items) := by
  refine ⟨?_, ?_, ?_, ?_⟩
  · intro d s srv it hit hbody hnodup hmemb
    have hmembs1 : memb (validityUpdate s srv.uidValidity).processedUIDs it.uid = false := by
      rcases validityUpdate_processed s srv.uidValidity with hp | hp
      · rw [hp]; exact hmemb
      · rw [hp]; rfl
    rw [← Bool.not_eq_true]
    intro htrue
    rw [imapCheckNewMessages_eq] at htrue
    by_cases hc : srv.msgCount = 0
    · rw [if_pos hc] at htrue
      rw [htrue] at hmembs1
      exact absurd hmembs1 (by simp)
    · rw [if_neg hc] at htrue
      by_cases hf : searchUids (validityUpdate s srv.uidValidity).lastUID srv.items = []
      · rw [if_pos hf] at htrue
        rw [htrue] at hmembs1
        exact absurd hmembs1 (by simp)
      · rw [if_neg hf] at htrue
        simp only [imapFinish] at htrue
        rcases imapProcess_marked_src d _ (validityUpdate s srv.uidValidity) it.uid htrue
          with h1 | ⟨it2, h2, h3, pm, h4⟩
        · rw [h1] at hmembs1
          exact absurd hmembs1 (by simp)
        · have h2i : it2 ∈ srv.items := searchUids_subset _ srv.items it2 h2
          have heq : it2 = it :=
            List.inj_on_of_nodup_map hnodup h2i hit h3
          rw [heq, hbody] at h4
          exact absurd (Option.some.inj h4) (by simp)
  · intro d parse ps items it dat hit hretr hrb hparse hnodup hmemb
    rw [← Bool.not_eq_true]
    intro htrue
    rcases pop3Process_marked_src d parse items ps it.uid htrue
      with h1 | ⟨it2, h2, h3, dat2, pm2, h4, h5⟩
    · rw [h1] at hmemb
      exact absurd hmemb (by simp)
    · have heq : it2 = it := List.inj_on_of_nodup_map hnodup h2 hit h3
      rw [heq, hrb] at h4
      rw [← Option.some.inj h4] at h5
      rw [hparse] at h5
      exact absurd h5 (by simp)
  · intro d parse name s items it hit hp hnodup hmemb
    rw [← Bool.not_eq_true]
    intro htrue
    unfold mailhogCheckNewMessages at htrue
    rcases mailhogProcess_marked_src d parse name items.reverse s it.mid htrue
      with h1 | ⟨it2, h2, h3, pm2, h4⟩
    · rw [h1] at hmemb
      exact absurd hmemb (by simp)
    · have h2i : it2 ∈ items := List.mem_reverse.mp h2
      have heq : it2 = it := List.inj_on_of_nodup_map hnodup h2i hit h3
      rw [heq, hp] at h4
      exact Option.noConfusion h4
  · intro d s srv it u2 hgen hsort _hit _hbody hlt hfresh htrue
    have hval := validityUpdate_keep s srv.uidValidity hgen
    by_cases hc : srv.msgCount = 0
    · have hTst : (imapCheckNewMessages d s srv).state.processedUIDs
          = s.processedUIDs := by
        rw [imapCheckNewMessages_eq, if_pos hc, hval]
      rw [hTst] at htrue
      rw [htrue] at hfresh
      exact absurd hfresh (by simp)
    · by_cases hf : searchUids (validityUpdate s srv.uidValidity).lastUID srv.items = []
      · have hTst : (imapCheckNewMessages d s srv).state.processedUIDs
            = s.processedUIDs := by
          rw [imapCheckNewMessages_eq, if_neg hc, if_pos hf, hval]
        rw [hTst] at htrue
        rw [htrue] at hfresh
        exact absurd hfresh (by simp)
      · have hTst : (imapCheckNewMessages d s srv).state =
            (imapProcess d (validityUpdate s srv.uidValidity)
              (searchUids (validityUpdate s srv.uidValidity).lastUID srv.items)).state := by
          rw [imapCheckNewMessages_eq, if_neg hc, if_neg hf]
          rfl
        obtain ⟨mk, hmk1, _, _, hmk4⟩ :=
          imapProcess_watermark d
            (searchUids (validityUpdate s srv.uidValidity).lastUID srv.items)
            (validityUpdate s srv.uidValidity)
            (searchUids_sorted _ srv.items hsort) (searchUids_ge _ srv.items)
        rw [hTst, hmk1, hval, memb_append, Bool.or_eq_true] at htrue
        rcases htrue with hmk2 | hold
        · have hu2mk : u2 ∈ mk := (memb_iff mk u2).mp hmk2
          have hmax := (hmk4 (List.ne_nil_of_mem hu2mk)).2 u2 hu2mk
          have hlast : u2 ≤ (imapCheckNewMessages d s srv).state.lastUID := by
            rw [hTst]
            exact hmax
          refine ⟨hlast, ?_⟩
          intro hmem2
          have hpos : 0 < (imapCheckNewMessages d s srv).state.lastUID :=
            Nat.lt_of_lt_of_le (Nat.lt_of_le_of_lt (Nat.zero_le it.uid) hlt) hlast
          unfold searchUids at hmem2
          rw [if_pos hpos] at hmem2
          have hlt2 : (imapCheckNewMessages d s srv).state.lastUID < it.uid := by
            simpa using List.of_mem_filter hmem2
          exact absurd hlt2
            (Nat.not_lt.mpr (Nat.le_of_lt (Nat.lt_of_lt_of_le hlt hlast)))
        · rw [hold] at hfresh
          exact absurd hfresh (by simp)

/-- Witness for the amended C3: the unparseable uid 1 of `srvEx` stays
unmarked after an IMAP tick; an unparseable POP3 message "u1" and an
unparseable MailHog item "m1" stay unmarked and hence eligible; and in the
`srvEx` tick the successfully dispatched uid 2 pushes the watermark past the
skipped uid 1, which the next search criterion then excludes. -/
theorem parse_skip_amended_witness :
    memb (imapCheckNewMessages dOk ⟨100, [], 0⟩ srvEx).state.processedUIDs 1 = false ∧
    memb (pop3Process dOk pFail ⟨[]⟩ [⟨1, "u1", true, [".\r\n"]⟩]).state.processedMsgs
      "u1" = false ∧
    memb (mailhogCheckNewMessages dOk pFail "mh" ⟨[], ""⟩
      [⟨"m1", "raw"⟩]).state.processedIDs "m1" = false ∧
    (2 ≤ (imapCheckNewMessages dOk ⟨100, [], 0⟩ srvEx).state.lastUID ∧
      (⟨1, some none⟩ : ImapItem) ∉ searchUids
        (imapCheckNewMessages dOk ⟨100, [], 0⟩ srvEx).state.lastUID srvEx.items) := by
  refine ⟨?_, ?_, ?_, ?_⟩
  · exact parse_skip_amended.1 dOk ⟨100, [], 0⟩ srvEx ⟨1, some none⟩
      (by decide) rfl (by decide) rfl
  · exact parse_skip_amended.2.1 dOk pFail ⟨[]⟩ [⟨1, "u1", true, [".\r\n"]⟩]
      ⟨1, "u1", true, [".\r\n"]⟩ "" (by decide) rfl rfl rfl (by decide) rfl
  · exact parse_skip_amended.2.2.1 dOk pFail "mh" ⟨[], ""⟩ [⟨"m1", "raw"⟩]
      ⟨"m1", "raw"⟩ (by decide) rfl (by decide) rfl
  · exact parse_skip_amended.2.2.2 dOk ⟨100, [], 0⟩ srvEx ⟨1, some none⟩ 2
      (Or.inl rfl) (by decide) (by decide) rfl (by decide) rfl (by decide)

/-! ## Message-id lemmas -/

theorem strAppend_ne_empty_left (a b : String) (h : a ≠ "") : a ++ b ≠ "" := by
  intro he
  apply h
  have hd := congrArg String.data he
  rw [String.data_append] at hd
  exact String.ext (List.append_eq_nil.mp hd).1

theorem strAppend_ne_empty_right (a b : String) (h : b ≠ "") : a ++ b ≠ "" := by
  intro he
  apply h
  have hd := congrArg String.data he
  rw [String.data_append] at hd
  exact String.ext (List.append_eq_nil.mp hd).2

theorem imapProcess_calls_id (d : Mail → Option String) (l : List ImapItem) :
    ∀ st : ImapState, ∀ m ∈ (imapProcess d st l).calls,
      ∃ v u : Nat, m.id = "imap-" ++ toString v ++ "-" ++ toString u := by
  induction l with
  | nil =>
    intro st m hm
    simp [imapProcess] at hm
  | cons it rest ih =>
    intro st m hm
    by_cases hmem : memb st.processedUIDs it.uid
    · rw [imapProcess_cons, if_pos hmem] at hm
      exact ih st m hm
    · rw [imapProcess_cons, if_neg hmem] at hm
      cases hbody : it.body with
      | none =>
        rw [hbody] at hm
        exact ih st m hm
      | some ob =>
        cases ob with
        | none =>
          rw [hbody] at hm
          exact ih st m hm
        | some pm =>
          rw [hbody] at hm
          simp only [] at hm
          cases hdm : d { pm with
              id := "imap-" ++ toString st.uidValidity ++ "-" ++ toString it.uid } with
          | some e =>
            rw [hdm] at hm
            rw [List.mem_singleton] at hm
            exact ⟨st.uidValidity, it.uid, by rw [hm]⟩
          | none =>
            rw [hdm] at hm
            rcases List.mem_cons.mp hm with rfl | hmtail
            · exact ⟨st.uidValidity, it.uid, rfl⟩
            · exact ih (imapMarkProcessed st it.uid) m hmtail

theorem pop3Process_calls_id (d : Mail → Option String)
    (parse : String → Option Mail) (l : List Pop3Item) :
    ∀ st : Pop3State, ∀ m ∈ (pop3Process d parse st l).calls,
      ∃ u : String, m.id = "pop3-" ++ u := by
  induction l with
  | nil =>
    intro st m hm
    simp [pop3Process] at hm
  | cons it rest ih =>
    intro st m hm
    by_cases hmem : memb st.processedMsgs it.uid
    · rw [pop3Process_cons, if_pos hmem] at hm
      exact ih st m hm
    · rw [pop3Process_cons, if_neg hmem] at hm
      cases hretr : it.retrOk with
      | false =>
        rw [hretr] at hm
        simp only [Bool.not_false, if_true] at hm
        exact ih st m hm
      | true =>
        rw [hretr] at hm
        simp only [Bool.not_true, Bool.false_eq_true, if_false] at hm
        cases hrb : readBody it.lines with
        | none =>
          rw [hrb] at hm
          simp at hm
        | some dat =>
          rw [hrb] at hm
          simp only [] at hm
          cases hp : parse dat with
          | none =>
            rw [hp] at hm
            exact ih st m hm
          | some pm =>
            rw [hp] at hm
            simp only [] at hm
            cases hdm : d { pm with id := "pop3-" ++ it.uid } with
            | some e =>
              rw [hdm] at hm
              rw [List.mem_singleton] at hm
              exact ⟨it.uid, by rw [hm]⟩
            | none =>
              rw [hdm] at hm
              rcases List.mem_cons.mp hm with rfl | hmtail
              · exact ⟨it.uid, rfl⟩
              · exact ih ⟨it.uid :: st.processedMsgs⟩ m hmtail

theorem mailhogProcess_calls_id (d : Mail → Option String)
    (parse : String → Option Mail) (name : String) (l : List MailHogItem) :
    ∀ s : MailHogState, ∀ m ∈ (mailhogProcess d parse name s l).calls,
      ∃ it ∈ l, m.id = it.mid := by
  induction l with
  | nil =>
    intro s m hm
    simp [mailhogProcess] at hm
  | cons it rest ih =>
    intro s m hm
    have step : ∀ s2 : MailHogState, m ∈ (mailhogProcess d parse name s2 rest).calls →
        ∃ it2 ∈ it :: rest, m.id = it2.mid := by
      intro s2 h2
      obtain ⟨it2, hit2, hid⟩ := ih s2 m h2
      exact ⟨it2, List.mem_cons_of_mem _ hit2, hid⟩
    by_cases hmem : memb s.processedIDs it.mid
    · rw [mailhogProcess, if_pos hmem] at hm
      exact step s hm
    · rw [mailhogProcess, if_neg hmem] at hm
      cases hp : parse it.raw with
      | none =>
        rw [hp] at hm
        exact step s hm
      | some pm =>
        rw [hp] at hm
        simp only [] at hm
        cases hdm : d { pm with id := it.mid, source := name } with
        | some e =>
          rw [hdm] at hm
          rw [List.mem_singleton] at hm
          exact ⟨it, List.mem_cons_self _ _, by rw [hm]⟩
        | none =>
          rw [hdm] at hm
          rcases List.mem_cons.mp hm with rfl | hmtail
          · exact ⟨it, List.mem_cons_self _ _, rfl⟩
          · exact step _ hmtail

/-- Counterexample to C5 as stated: a MailHog tick whose API item carries an
empty server id dispatches a mail whose id is empty. -/
theorem nonempty_id_counterexample :
    ¬ (∀ m ∈ (mailhogCheckNewMessages dOk pOk "mh" ⟨[], ""⟩ [⟨"", "raw"⟩]).calls,
        m.id ≠ "") := by
  decide

/-- Claim C5 as amended: every mail the IMAP and POP3 ticks and the SMTP data
phase pass to `Dispatch` carries a non-empty id; a MailHog tick dispatches
the server-provided item id verbatim, so its ids are non-empty exactly when
the server item ids observed in the batch are non-empty. -/
theorem nonempty_id_amended :
    (∀ (d : Mail → Option String) (s : ImapState) (srv : ImapServerView),
      ∀ m ∈ (imapCheckNewMessages d s srv).calls, m.id ≠ "") ∧
    (∀ (d : Mail → Option String) (parse : String → Option Mail)
      (ps : Pop3State) (items : List Pop3Item),
      ∀ m ∈ (pop3Process d parse ps items).calls, m.id ≠ "") ∧
    (∀ (sess : SessionState) (parsed : Option Mail) (d : Mail → Option String)
      (m : Mail) (r : Option String),
      sessionData sess parsed d = .dispatched m r → m.id ≠ "") ∧
    (∀ (d : Mail → Option String) (parse : String → Option Mail) (name : String)
      (s : MailHogState) (items : List MailHogItem),
      (∀ it ∈ items, it.mid ≠ "") →
      ∀ m ∈ (mailhogCheckNewMessages d parse name s items).calls, m.id ≠ "") := by
  refine ⟨?_, ?_, ?_, ?_⟩
  · intro d s srv m hm
    rw [imapCheckNewMessages_eq] at hm
    by_cases hc : srv.msgCount = 0
    · rw [if_pos hc] at hm
      simp at hm
    · rw [if_neg hc] at hm
      by_cases hf : searchUids (validityUpdate s srv.uidValidity).lastUID srv.items = []
      · rw [if_pos hf] at hm
        simp at hm
      · rw [if_neg hf] at hm
        simp only [imapFinish] at hm
        obtain ⟨v, u, hid⟩ := imapProcess_calls_id d _ (validityUpdate s srv.uidValidity) m hm
        rw [hid]
        exact strAppend_ne_empty_left _ _
          (strAppend_ne_empty_left _ _ (strAppend_ne_empty_left _ _ (by decide)))
  · intro d parse ps items m hm
    obtain ⟨u, hid⟩ := pop3Process_calls_id d parse items ps m hm
    rw [hid]
    exact strAppend_ne_empty_left _ _ (by decide)
  · intro sess parsed d m r h
    cases parsed with
    | none => exact DataResult.noConfusion h
    | some pm =>
      simp only [sessionData] at h
      by_cases hif : (if pm.id = "" then pm.messageID else pm.id) = ""
      · rw [if_pos hif] at h
        cases hfa : pm.fromAddrs.head? with
        | none =>
          rw [hfa] at h
          exact DataResult.noConfusion h
        | some f =>
          cases hta : pm.toAddrs.head? with
          | none =>
            rw [hfa, hta] at h
            exact DataResult.noConfusion h
          | some t =>
            rw [hfa, hta] at h
            simp only [] at h
            rw [DataResult.dispatched.injEq] at h
            rw [← h.1]
            exact strAppend_ne_empty_left _ _
              (strAppend_ne_empty_right _ _ (by decide))
      · rw [if_neg hif] at h
        rw [DataResult.dispatched.injEq] at h
        rw [← h.1]
        exact hif
  · intro d parse name s items hids m hm
    obtain ⟨it, hit, hid⟩ :=
      mailhogProcess_calls_id d parse name items.reverse s m hm
    rw [hid]
    exact hids it (List.mem_reverse.mp hit)

/-- Witness for the amended C5: concrete dispatched mails of each source
carry non-empty ids. -/
theorem nonempty_id_amended_witness :
    ({ mEx with id := "imap-" ++ toString 100 ++ "-" ++ toString 2 } : Mail).id ≠ "" ∧
    ({ mEx with id := "pop3-" ++ "u1" } : Mail).id ≠ "" ∧
    ({ mEx with id := "2024-01-01" ++ ":" ++ "a@x" ++ ":" ++ "b@y" } : Mail).id ≠ "" ∧
    ({ mEx with id := "m1", source := "mh" } : Mail).id ≠ "" := by
  refine ⟨?_, ?_, ?_, ?_⟩
  · exact nonempty_id_amended.1 dOk ⟨100, [], 0⟩ srvEx _ (by decide)
  · exact nonempty_id_amended.2.1 dOk pOk ⟨[]⟩ [⟨1, "u1", true, [".\r\n"]⟩] _ (by decide)
  · exact nonempty_id_amended.2.2.1 ⟨"", []⟩ (some mEx) dOk _ none (by decide)
  · exact nonempty_id_amended.2.2.2 dOk pOk "mh" ⟨[], ""⟩ [⟨"m1", "raw"⟩]
      (by decide) _ (by decide)

/-! ## POP3 framing, SMTP data phase -/

/-- Claim C7, evaluated at the failing input: a `RETR` stream consisting of
the byte-stuffed data line "..a\r\n" and the terminator ".\r\n" (followed by
an unread line).  The terminator is excluded, as claimed; but the leading dot
of the data line is kept verbatim — the code never unstuffs, so the parser
receives "..a\r\n" where the claim requires ".a\r\n". -/
theorem pop3_unstuff_divergence :
    readBody ["..a\r\n", ".\r\n", "b\r\n"] = some "..a\r\n" ∧
    some ("..a\r\n" : String) ≠ some (".a\r\n" : String) := by
  decide

/-- Claim C9: when the data phase parses into a message whose stored and
header-derived ids are both empty and whose parsed From or To list is empty,
the fallback-id construction indexes an empty list — the out-of-bounds
failure branch is reached instead of an ordinary error. -/
theorem smtp_fallback_panic_claim (sess : SessionState) (d : Mail → Option String)
    (pm : Mail) (hid : pm.id = "") (hmid : pm.messageID = "")
    (hempty : pm.fromAddrs = [] ∨ pm.toAddrs = []) :
    sessionData sess (some pm) d = .indexPanic := by
  simp only [sessionData, hid, hmid, if_pos rfl, if_true]
  rcases hempty with hf | ht
  · rw [hf]
    rfl
  · rw [ht]
    cases pm.fromAddrs.head? <;> rfl

/-- Witness for C9: a parsed mail with no Message-ID and no From address
reaches the failure branch. -/
theorem smtp_fallback_panic_claim_witness :
    sessionData ⟨"", []⟩
      (some ⟨"", "", "s", "2024-01-01", [], ["b@y"], "t", ""⟩) dOk = .indexPanic :=
  smtp_fallback_panic_claim ⟨"", []⟩ dOk _ rfl rfl (Or.inl rfl)

/-- Claim C10: the outcome of the data phase — including the dispatched
mail — depends only on the parse of the data-phase bytes; the envelope state
accumulated through any sequence of Mail/Rcpt/Reset commands from any
starting state never influences it. -/
theorem smtp_envelope_independence_claim (cs1 cs2 : List SmtpCmd)
    (init1 init2 : SessionState) (parse : String → Option Mail)
    (dataBytes : String) (d : Mail → Option String) :
    sessionData (sessionRunCmds init1 cs1) (parse dataBytes) d =
      sessionData (sessionRunCmds init2 cs2) (parse dataBytes) d := rfl

end ListenMail
